import Mathlib

/-!
Shallow embedding of the FCFS scheduling core of the repository
(`src/app/projects/fcfs/page.tsx`): the `fcfs` scheduler, the `simulate`
validation wrapper, the run-length timeline compressor and the metric
averages.  JS numbers holding validated inputs are modelled as `Int`;
timelines are lists of strings where the sentinel is the literal `"IDLE"`,
exactly as in the source.
-/

/-- A validated process handed to `fcfs`: `{ pid, arrival, burst }`. -/
structure Proc where
  pid : String
  arrival : Int
  burst : Int
deriving DecidableEq, Repr

/-- One entry of `done` in `fcfs`: the input fields plus
`completion`, `turnaround`, `waiting`. -/
structure ProcResult where
  pid : String
  arrival : Int
  burst : Int
  completion : Int
  turnaround : Int
  waiting : Int
deriving DecidableEq, Repr

/-- Lexicographic comparison of char sequences: `lexLe a b` models
`a.localeCompare(b) <= 0` for the ASCII pids this page produces. -/
def lexLe : List Char → List Char → Bool
  | [], _ => true
  | _ :: _, [] => false
  | a :: as, b :: bs => if a = b then lexLe as bs else decide (a < b)

/-- The comparator `(a, b) => a.arrival - b.arrival || a.pid.localeCompare(b.pid)`
seen as a total preorder: `a` may come before `b` iff the comparator is ≤ 0. -/
def fcfsLe (a b : Proc) : Prop :=
  a.arrival < b.arrival ∨ (a.arrival = b.arrival ∧ lexLe a.pid.data b.pid.data = true)

instance : DecidableRel fcfsLe := fun a b => by
  unfold fcfsLe
  exact inferInstance

/-- The spread copy `{ ...p }` performed on each element before sorting. -/
def copyProc (p : Proc) : Proc :=
  { pid := p.pid, arrival := p.arrival, burst := p.burst }

/-- The loop body of `fcfs`, with the mutable `time` and the iteration over
the sorted array made explicit: for each process, emit the idle gap (if its
arrival is still in the future), emit `burst` units of its pid, and record
the result object pushed onto `done`. -/
def fcfsRun : Int → List Proc → List String × List ProcResult
  | _, [] => ([], [])
  | time, current :: rest =>
    let startTime := if current.arrival > time then current.arrival else time
    let idle : List String :=
      if current.arrival > time then
        List.replicate (current.arrival - time).toNat "IDLE"
      else []
    let completionTime := startTime + current.burst
    let executed : List String := List.replicate current.burst.toNat current.pid
    let res : ProcResult :=
      { pid := current.pid, arrival := current.arrival, burst := current.burst
        completion := completionTime
        turnaround := completionTime - current.arrival
        waiting := completionTime - current.arrival - current.burst }
    let next := fcfsRun completionTime rest
    (idle ++ executed ++ next.1, res :: next.2)

/-- Value of the mutable `time` after the loop has consumed the given list. -/
def clockAfter : Int → List Proc → Int
  | t, [] => t
  | t, c :: rest =>
    clockAfter ((if c.arrival > t then c.arrival else t) + c.burst) rest

/-- The scheduler `fcfs`: copy every element, sort the copies by ascending arrival with
pid tie-break (JS `sort` is stable; `insertionSort` with this total preorder
is the same stable order), then run the scheduling loop from time 0. -/
def fcfs (processes : List Proc) : List String × List ProcResult :=
  fcfsRun 0 (List.insertionSort fcfsLe (processes.map copyProc))

/-- The call `fcfs(processes)` with the caller's array threaded as explicit
state: the returned second component is the array the caller still holds
after the call.  The body reads the argument only to build `copyProc` copies,
and never writes through it, so the state passes through unchanged. -/
def fcfsWithCallerState (processes : List Proc) :
    (List String × List ProcResult) × List Proc :=
  (fcfsRun 0 (List.insertionSort fcfsLe (processes.map copyProc)), processes)

/-- One block of the run-length-compressed Gantt view: `{ id, duration }`. -/
structure TimelineBlock where
  id : String
  duration : Nat
deriving DecidableEq, Repr

/-- Body of the `reduce` in `compressedTimeline`: push a fresh block when the
accumulator is empty or its last block has a different id, otherwise bump the
last block's duration in place. -/
def compressStep (acc : List TimelineBlock) (current : String) : List TimelineBlock :=
  match acc.getLast? with
  | none => acc ++ [⟨current, 1⟩]
  | some last =>
    if last.id ≠ current then acc ++ [⟨current, 1⟩]
    else acc.dropLast ++ [⟨last.id, last.duration + 1⟩]

/-- The reduce over the timeline: run-length compression for the Gantt chart. -/
def compressedTimeline (timeline : List String) : List TimelineBlock :=
  timeline.foldl compressStep []

/-- Expansion of a block sequence: repeat each block's id `duration` times,
in block order. -/
def expandTimeline (blocks : List TimelineBlock) : List String :=
  blocks.flatMap fun b => List.replicate b.duration b.id

/-- One input row of the form: `pid` text plus `arrival`/`burst` fields that
are each either a number or the empty string (modelled as `Option Int`). -/
structure RawProcess where
  pid : String
  arrival : Option Int
  burst : Option Int
deriving DecidableEq, Repr

/-- Upper bound `MAX_TIME_UNIT` on arrival and burst values. -/
def MAX_TIME_UNIT : Int := 500

/-- The distinct rejection messages `simulate` can produce, keyed by the
constraint that failed; the ones that blame a single row carry its pid.
(The `isNaN` re-check of the source cannot fire in this model, because the
fields are integers by construction, so it has no constructor here.) -/
inductive SimError where
  | emptyPid : SimError
  | incompleteProcess : String → SimError
  | outOfRange : String → SimError
  | valueTooLarge : String → SimError
  | emptyBatch : SimError
deriving DecidableEq, Repr

/-- JS `String.prototype.trim`, on the char sequence: drop whitespace from
both ends. -/
def trimChars (s : List Char) : List Char :=
  ((s.dropWhile Char.isWhitespace).reverse.dropWhile Char.isWhitespace).reverse

/-- The validation loop of `simulate`: walk the rows in order, skip rows with
both fields empty, stop at the first violated rule, and collect the validated
processes otherwise. -/
def collectValid : List RawProcess → Except SimError (List Proc)
  | [] => .ok []
  | p :: rest =>
    if trimChars p.pid.data = [] then .error .emptyPid
    else
      match p.arrival, p.burst with
      | none, none => collectValid rest
      | some arrival, some burst =>
        if arrival < 0 ∨ burst ≤ 0 then .error (.outOfRange p.pid)
        else if arrival > MAX_TIME_UNIT ∨ burst > MAX_TIME_UNIT then
          .error (.valueTooLarge p.pid)
        else
          match collectValid rest with
          | .error e => .error e
          | .ok tail => .ok ({ pid := p.pid, arrival := arrival, burst := burst } :: tail)
      | _, _ => .error (.incompleteProcess p.pid)

/-- The display sort `out.results.sort((a, b) => a.pid.localeCompare(b.pid))`. -/
def resultLe (a b : ProcResult) : Prop := lexLe a.pid.data b.pid.data = true

instance : DecidableRel resultLe := fun a b => by
  unfold resultLe
  exact inferInstance

/-- The handler `simulate`: validate every row; on any violation set the error and leave
results and timeline null (modelled as `Except.error`); otherwise run `fcfs`
and publish the pid-sorted results and the timeline. -/
def simulate (processes : List RawProcess) :
    Except SimError (List ProcResult × List String) :=
  match collectValid processes with
  | .error e => .error e
  | .ok validProcesses =>
    if validProcesses.isEmpty then .error .emptyBatch
    else
      let out := fcfs validProcesses
      .ok (List.insertionSort resultLe out.2, out.1)

/-- The average `avgW = results.reduce((a, b) => a + b.waiting, 0) / results.length`,
in exact rational arithmetic. -/
def avgWaiting (results : List ProcResult) : ℚ :=
  (results.foldl (fun a b => a + (b.waiting : ℚ)) 0) / (results.length : ℚ)

/-- The average `avgT = results.reduce((a, b) => a + b.turnaround, 0) / results.length`,
in exact rational arithmetic. -/
def avgTurnaround (results : List ProcResult) : ℚ :=
  (results.foldl (fun a b => a + (b.turnaround : ℚ)) 0) / (results.length : ℚ)

/-! ### Helper lemmas about the scheduling loop -/

theorem lexLe_total : ∀ as bs : List Char, lexLe as bs = true ∨ lexLe bs as = true
  | [], _ => Or.inl rfl
  | _ :: _, [] => Or.inr rfl
  | a :: as, b :: bs => by
    by_cases hab : a = b
    · subst hab
      simpa [lexLe] using lexLe_total as bs
    · rcases lt_trichotomy a b with h | h | h
      · exact Or.inl (by simp [lexLe, hab, h])
      · exact absurd h hab
      · exact Or.inr (by simp [lexLe, Ne.symm hab, h])

theorem lexLe_antisymm : ∀ as bs : List Char,
    lexLe as bs = true → lexLe bs as = true → as = bs
  | [], [], _, _ => rfl
  | [], _ :: _, _, h => by simp [lexLe] at h
  | _ :: _, [], h, _ => by simp [lexLe] at h
  | a :: as, b :: bs, h1, h2 => by
    by_cases hab : a = b
    · subst hab
      simp only [lexLe, if_pos rfl] at h1 h2
      exact congrArg _ (lexLe_antisymm as bs h1 h2)
    · simp only [lexLe, if_neg hab, if_neg (Ne.symm hab), decide_eq_true_eq] at h1 h2
      exact absurd h2 (lt_asymm h1)

theorem lexLe_trans : ∀ as bs cs : List Char,
    lexLe as bs = true → lexLe bs cs = true → lexLe as cs = true
  | [], _, _, _, _ => rfl
  | _ :: _, [], _, h, _ => by simp [lexLe] at h
  | _ :: _, _ :: _, [], _, h => by simp [lexLe] at h
  | a :: as, b :: bs, c :: cs, h1, h2 => by
    by_cases hab : a = b <;> by_cases hbc : b = c
    · subst hab; subst hbc
      simp only [lexLe, if_pos rfl] at h1 h2 ⊢
      exact lexLe_trans as bs cs h1 h2
    · subst hab
      simpa [lexLe, hbc] using h2
    · subst hbc
      simpa [lexLe, hab] using h1
    · simp only [lexLe, if_neg hab, if_neg hbc, decide_eq_true_eq] at h1 h2
      have hac : a < c := lt_trans h1 h2
      simp [lexLe, ne_of_lt hac, hac]

theorem fcfsLe_total : ∀ a b : Proc, fcfsLe a b ∨ fcfsLe b a := by
  intro a b
  rcases lt_trichotomy a.arrival b.arrival with h | h | h
  · exact Or.inl (Or.inl h)
  · rcases lexLe_total a.pid.data b.pid.data with hp | hp
    · exact Or.inl (Or.inr ⟨h, hp⟩)
    · exact Or.inr (Or.inr ⟨h.symm, hp⟩)
  · exact Or.inr (Or.inl h)

theorem fcfsLe_trans : ∀ a b c : Proc, fcfsLe a b → fcfsLe b c → fcfsLe a c := by
  rintro a b c (hab | ⟨hab, hab2⟩) (hbc | ⟨hbc, hbc2⟩)
  · exact Or.inl (hab.trans hbc)
  · exact Or.inl (hbc ▸ hab)
  · exact Or.inl (hab ▸ hbc)
  · exact Or.inr ⟨hab.trans hbc, lexLe_trans _ _ _ hab2 hbc2⟩


@[simp]
theorem copyProc_eq (p : Proc) : copyProc p = p := rfl

@[simp]
theorem map_copyProc (l : List Proc) : l.map copyProc = l := by
  induction l with
  | nil => rfl
  | cons p l ih => simp [ih]

theorem fcfsRun_append (l₁ l₂ : List Proc) (t : Int) :
    fcfsRun t (l₁ ++ l₂) =
      ((fcfsRun t l₁).1 ++ (fcfsRun (clockAfter t l₁) l₂).1,
       (fcfsRun t l₁).2 ++ (fcfsRun (clockAfter t l₁) l₂).2) := by
  induction l₁ generalizing t with
  | nil => simp [fcfsRun, clockAfter]
  | cons c l₁ ih => simp [fcfsRun, clockAfter, ih]

theorem mem_fcfsRun_timeline {u : String} {l : List Proc} {t : Int}
    (h : u ∈ (fcfsRun t l).1) : u = "IDLE" ∨ u ∈ l.map Proc.pid := by
  induction l generalizing t with
  | nil => simp [fcfsRun] at h
  | cons c l ih =>
    simp only [fcfsRun, List.mem_append] at h
    rcases h with (h | h) | h
    · by_cases hgt : c.arrival > t
      · rw [if_pos hgt] at h
        exact Or.inl (List.eq_of_mem_replicate h)
      · rw [if_neg hgt] at h
        simp at h
    · exact Or.inr (by simp [List.eq_of_mem_replicate h])
    · rcases ih h with h | h
      · exact Or.inl h
      · right
        simp only [List.map_cons, List.mem_cons]
        exact Or.inr h

theorem fcfsRun_length {l : List Proc} (t : Int)
    (hb : ∀ p ∈ l, 0 ≤ p.burst) :
    ((fcfsRun t l).1.length : Int) = clockAfter t l - t := by
  induction l generalizing t with
  | nil => simp [fcfsRun, clockAfter]
  | cons c l ih =>
    have hc : 0 ≤ c.burst := hb c (by simp)
    have ih' := ih ((if c.arrival > t then c.arrival else t) + c.burst)
      (fun p hp => hb p (by simp [hp]))
    simp only [fcfsRun, clockAfter] at ih' ⊢
    by_cases hgt : c.arrival > t
    · simp only [if_pos hgt] at ih' ⊢
      simp only [List.length_append, List.length_replicate]
      omega
    · simp only [if_neg hgt] at ih' ⊢
      simp only [List.length_append, List.length_replicate, List.nil_append]
      omega

theorem fcfsRun_results_pid (l : List Proc) (t : Int) :
    (fcfsRun t l).2.map ProcResult.pid = l.map Proc.pid := by
  induction l generalizing t with
  | nil => simp [fcfsRun]
  | cons c l ih => simp [fcfsRun, ih]

theorem clockAfter_le (l : List Proc) (t : Int)
    (hb : ∀ p ∈ l, 0 ≤ p.burst) : t ≤ clockAfter t l := by
  induction l generalizing t with
  | nil => simp [clockAfter]
  | cons c l ih =>
    have hc : 0 ≤ c.burst := hb c (by simp)
    have h2 := ih ((if c.arrival > t then c.arrival else t) + c.burst)
      (fun p hp => hb p (by simp [hp]))
    simp only [clockAfter]
    by_cases hgt : c.arrival > t
    · simp only [if_pos hgt] at h2 ⊢
      omega
    · simp only [if_neg hgt] at h2 ⊢
      omega

theorem fcfsRun_completion_bounds {l : List Proc} (t : Int)
    (hb : ∀ p ∈ l, 1 ≤ p.burst) :
    ∀ r ∈ (fcfsRun t l).2, t < r.completion ∧ r.completion ≤ clockAfter t l := by
  induction l generalizing t with
  | nil => simp [fcfsRun]
  | cons c l ih =>
    intro r hr
    have hc : 1 ≤ c.burst := hb c (by simp)
    simp only [fcfsRun, List.mem_cons] at hr
    have hrest : ∀ p ∈ l, 1 ≤ p.burst := fun p hp => hb p (by simp [hp])
    have hb0 : ∀ p ∈ l, 0 ≤ p.burst := fun p hp => by have := hrest p hp; omega
    have hca := clockAfter_le l ((if c.arrival > t then c.arrival else t) + c.burst) hb0
    have hstep : t ≤ (if c.arrival > t then c.arrival else t) + c.burst := by
      by_cases hgt : c.arrival > t
      · rw [if_pos hgt]; omega
      · rw [if_neg hgt]; omega
    rcases hr with rfl | hr
    · constructor
      · show t < (if c.arrival > t then c.arrival else t) + c.burst
        by_cases hgt : c.arrival > t
        · rw [if_pos hgt]; omega
        · rw [if_neg hgt]; omega
      · show (if c.arrival > t then c.arrival else t) + c.burst ≤ clockAfter t (c :: l)
        simp only [clockAfter]
        exact hca
    · have hih := ih ((if c.arrival > t then c.arrival else t) + c.burst) hrest r hr
      refine ⟨by omega, ?_⟩
      simp only [clockAfter]
      exact hih.2

theorem fcfsRun_pairwise_completion {l : List Proc} (t : Int)
    (hb : ∀ p ∈ l, 1 ≤ p.burst) :
    ((fcfsRun t l).2).Pairwise (fun a b => a.completion < b.completion) := by
  induction l generalizing t with
  | nil => simp [fcfsRun]
  | cons c l ih =>
    have hrest : ∀ p ∈ l, 1 ≤ p.burst := fun p hp => hb p (by simp [hp])
    simp only [fcfsRun, List.pairwise_cons]
    refine ⟨fun r hr => ?_, ih _ hrest⟩
    exact (fcfsRun_completion_bounds _ hrest r hr).1

theorem fcfsRun_getLast {l : List Proc} (t : Int) (hne : l ≠ []) :
    ∃ r, (fcfsRun t l).2.getLast? = some r ∧ r.completion = clockAfter t l := by
  induction l generalizing t with
  | nil => exact absurd rfl hne
  | cons c l ih =>
    by_cases hl : l = []
    · subst hl
      refine ⟨_, rfl, ?_⟩
      simp [fcfsRun, clockAfter]
    · obtain ⟨r, hr, hrc⟩ := ih ((if c.arrival > t then c.arrival else t) + c.burst) hl
      refine ⟨r, ?_, by simpa [clockAfter] using hrc⟩
      simp only [fcfsRun]
      rcases hrs : (fcfsRun ((if c.arrival > t then c.arrival else t) + c.burst) l).2 with
        _ | ⟨b, bs⟩
      · rw [hrs] at hr
        simp at hr
      · rw [hrs] at hr
        rw [List.getLast?_cons_cons]
        exact hr

theorem fcfsRun_countP {l : List Proc} (t : Int)
    (hb : ∀ p ∈ l, 0 ≤ p.burst) (hpid : ∀ p ∈ l, p.pid ≠ "IDLE") :
    (((fcfsRun t l).1.countP fun u => !(u == "IDLE")) : Int) = (l.map Proc.burst).sum := by
  induction l generalizing t with
  | nil => simp [fcfsRun]
  | cons c l ih =>
    have hc : 0 ≤ c.burst := hb c (by simp)
    have hcp : c.pid ≠ "IDLE" := hpid c (by simp)
    have ih' := ih ((if c.arrival > t then c.arrival else t) + c.burst)
      (fun p hp => hb p (by simp [hp])) (fun p hp => hpid p (by simp [hp]))
    simp only [fcfsRun, List.countP_append, List.map_cons, List.sum_cons]
    have hcpb : (!(c.pid == "IDLE")) = true := by
      simp [hcp]
    by_cases hgt : c.arrival > t
    · simp [if_pos hgt, List.countP_replicate, hcpb] at ih' ⊢
      omega
    · simp [if_neg hgt, List.countP_replicate, hcpb] at ih' ⊢
      omega

theorem fcfsRun_result_fields {l : List Proc} (t : Int) :
    ∀ r ∈ (fcfsRun t l).2,
      0 ≤ r.waiting ∧ r.arrival + r.burst ≤ r.completion ∧
      r.turnaround = r.completion - r.arrival ∧ r.waiting = r.turnaround - r.burst := by
  induction l generalizing t with
  | nil => simp [fcfsRun]
  | cons c l ih =>
    intro r hr
    simp only [fcfsRun, List.mem_cons] at hr
    rcases hr with rfl | hr
    · refine ⟨?_, ?_, rfl, rfl⟩
      · show 0 ≤ (if c.arrival > t then c.arrival else t) + c.burst - c.arrival - c.burst
        by_cases hgt : c.arrival > t
        · rw [if_pos hgt]; omega
        · rw [if_neg hgt]; omega
      · show c.arrival + c.burst ≤ (if c.arrival > t then c.arrival else t) + c.burst
        by_cases hgt : c.arrival > t
        · rw [if_pos hgt]
        · rw [if_neg hgt]; omega
    · exact ih _ r hr

theorem expandTimeline_append (xs ys : List TimelineBlock) :
    expandTimeline (xs ++ ys) = expandTimeline xs ++ expandTimeline ys := by
  simp [expandTimeline]

theorem expandTimeline_compressStep (acc : List TimelineBlock) (c : String) :
    expandTimeline (compressStep acc c) = expandTimeline acc ++ [c] := by
  induction acc using List.reverseRecOn with
  | nil => simp [compressStep, expandTimeline]
  | append_singleton ys y _ =>
    by_cases hy : y.id = c
    · simp only [compressStep, List.getLast?_concat, ne_eq, hy, not_true_eq_false, if_false,
        List.dropLast_concat, expandTimeline_append]
      simp [expandTimeline, hy, List.replicate_succ' y.duration]
    · simp only [compressStep, List.getLast?_concat, ne_eq, hy, not_false_eq_true, if_true,
        expandTimeline_append]
      simp [expandTimeline]

theorem foldl_compressStep_expand (l : List String) (acc : List TimelineBlock) :
    expandTimeline (l.foldl compressStep acc) = expandTimeline acc ++ l := by
  induction l generalizing acc with
  | nil => simp
  | cons c l ih =>
    rw [List.foldl_cons, ih, expandTimeline_compressStep, List.append_assoc]
    rfl

theorem foldl_add_int_cast (f : ProcResult → Int) :
    ∀ (l : List ProcResult) (a : ℚ),
      l.foldl (fun x r => x + (f r : ℚ)) a = a + ((l.map fun r => (f r : ℚ)).sum)
  | [], a => by simp
  | r :: l, a => by
    rw [List.foldl_cons, foldl_add_int_cast f l]
    simp [add_assoc]

theorem fcfs_eq (ps : List Proc) :
    fcfs ps = fcfsRun 0 (List.insertionSort fcfsLe ps) := by
  unfold fcfs
  rw [map_copyProc]

theorem foldl_waiting_sum : ∀ (l : List ProcResult) (a : ℚ),
    l.foldl (fun x r => x + (r.waiting : ℚ)) a = a + ((l.map fun r => (r.waiting : ℚ)).sum)
  | [], a => by simp
  | r :: l, a => by
    rw [List.foldl_cons, foldl_waiting_sum l]
    simp [add_assoc]

theorem foldl_turnaround_sum : ∀ (l : List ProcResult) (a : ℚ),
    l.foldl (fun x r => x + (r.turnaround : ℚ)) a =
      a + ((l.map fun r => (r.turnaround : ℚ)).sum)
  | [], a => by simp
  | r :: l, a => by
    rw [List.foldl_cons, foldl_turnaround_sum l]
    simp [add_assoc]

/-! ### Claim theorems -/

/-- C1: for every valid input (non-empty, `arrival ≥ 0`, `burst ≥ 1`), the
timeline's length equals the last result's completion time, and every
timeline unit is either the sentinel `IDLE` or the pid of one of the input
processes — no gaps and no overlaps. -/
theorem fcfs_timeline_coverage (ps : List Proc) (hne : ps ≠ [])
    (hvalid : ∀ p ∈ ps, 0 ≤ p.arrival ∧ 1 ≤ p.burst) :
    (∃ r, (fcfs ps).2.getLast? = some r ∧ ((fcfs ps).1.length : Int) = r.completion) ∧
    ∀ u ∈ (fcfs ps).1, u = "IDLE" ∨ u ∈ ps.map Proc.pid := by
  rw [fcfs_eq]
  have hperm : List.Perm (List.insertionSort fcfsLe ps) ps :=
    List.perm_insertionSort fcfsLe ps
  have hsb : ∀ p ∈ List.insertionSort fcfsLe ps, 0 ≤ p.burst := fun p hp => by
    have := hvalid p (hperm.mem_iff.1 hp)
    omega
  have hsne : List.insertionSort fcfsLe ps ≠ [] := by
    intro h
    apply hne
    have hlen := hperm.length_eq
    rw [h] at hlen
    exact List.length_eq_zero.1 hlen.symm
  constructor
  · obtain ⟨r, hr, hrc⟩ := fcfsRun_getLast 0 hsne
    refine ⟨r, hr, ?_⟩
    have hlen := fcfsRun_length 0 hsb
    omega
  · intro u hu
    rcases mem_fcfsRun_timeline hu with h | h
    · exact Or.inl h
    · exact Or.inr ((hperm.map Proc.pid).mem_iff.1 h)

/-- C1 witness at the single-process input `[{P1, arrival 0, burst 2}]`. -/
theorem fcfs_timeline_coverage_witness :
    (∃ r, (fcfs [Proc.mk "P1" 0 2]).2.getLast? = some r ∧
        ((fcfs [Proc.mk "P1" 0 2]).1.length : Int) = r.completion) ∧
    ∀ u ∈ (fcfs [Proc.mk "P1" 0 2]).1, u = "IDLE" ∨ u ∈ [Proc.mk "P1" 0 2].map Proc.pid :=
  fcfs_timeline_coverage [Proc.mk "P1" 0 2] (by decide) (by decide)

/-- C3: on valid input every result satisfies `waiting ≥ 0`,
`completion ≥ arrival + burst`, `turnaround = completion - arrival` and
`waiting = turnaround - burst`. -/
theorem fcfs_result_invariants (ps : List Proc)
    (hvalid : ∀ p ∈ ps, 0 ≤ p.arrival ∧ 1 ≤ p.burst) :
    ∀ r ∈ (fcfs ps).2,
      0 ≤ r.waiting ∧ r.arrival + r.burst ≤ r.completion ∧
      r.turnaround = r.completion - r.arrival ∧ r.waiting = r.turnaround - r.burst := by
  rw [fcfs_eq]
  exact fcfsRun_result_fields 0

/-- C3 witness at `[{P1, arrival 0, burst 2}]`, instantiated at its one
result. -/
theorem fcfs_result_invariants_witness :
    0 ≤ (ProcResult.mk "P1" 0 2 2 2 0).waiting ∧
    (ProcResult.mk "P1" 0 2 2 2 0).arrival + (ProcResult.mk "P1" 0 2 2 2 0).burst ≤
      (ProcResult.mk "P1" 0 2 2 2 0).completion ∧
    (ProcResult.mk "P1" 0 2 2 2 0).turnaround =
      (ProcResult.mk "P1" 0 2 2 2 0).completion - (ProcResult.mk "P1" 0 2 2 2 0).arrival ∧
    (ProcResult.mk "P1" 0 2 2 2 0).waiting =
      (ProcResult.mk "P1" 0 2 2 2 0).turnaround - (ProcResult.mk "P1" 0 2 2 2 0).burst :=
  fcfs_result_invariants [Proc.mk "P1" 0 2] (by decide)
    (ProcResult.mk "P1" 0 2 2 2 0) (by decide)

/-- C4: when the next process arrives strictly after the current clock, the
loop appends exactly `arrival - clock` IDLE units and the process starts at
its arrival time (completing at `arrival + burst` with waiting 0); and on the
concrete input `[{P1, arrival 2, burst 3}]` the whole schedule is
`IDLE, IDLE, P1, P1, P1` with completion 5, waiting 0, turnaround 3. -/
theorem fcfs_idle_gap (t : Int) (c : Proc) (rest : List Proc)
    (hgt : c.arrival > t) :
    (fcfsRun t (c :: rest)).1 =
      List.replicate (c.arrival - t).toNat "IDLE" ++
        (List.replicate c.burst.toNat c.pid ++ (fcfsRun (c.arrival + c.burst) rest).1) ∧
    (fcfsRun t (c :: rest)).2 =
      { pid := c.pid, arrival := c.arrival, burst := c.burst,
        completion := c.arrival + c.burst, turnaround := c.burst,
        waiting := 0 } :: (fcfsRun (c.arrival + c.burst) rest).2 ∧
    fcfs [⟨"P1", 2, 3⟩] =
      (["IDLE", "IDLE", "P1", "P1", "P1"], [⟨"P1", 2, 3, 5, 3, 0⟩]) := by
  refine ⟨?_, ?_, by decide⟩
  · simp [fcfsRun, if_pos hgt]
  · have hbase : (fcfsRun t (c :: rest)).2 =
        { pid := c.pid, arrival := c.arrival, burst := c.burst,
          completion := c.arrival + c.burst,
          turnaround := c.arrival + c.burst - c.arrival,
          waiting := c.arrival + c.burst - c.arrival - c.burst } ::
          (fcfsRun (c.arrival + c.burst) rest).2 := by
      simp [fcfsRun, if_pos hgt]
    rw [hbase]
    have h2 : c.arrival + c.burst - c.arrival - c.burst = 0 := by omega
    have h1 : c.arrival + c.burst - c.arrival = c.burst := by omega
    rw [h2, h1]

/-- C4 witness at clock 0 with the process `{P1, arrival 2, burst 3}`. -/
theorem fcfs_idle_gap_witness :
    (fcfsRun 0 [Proc.mk "P1" 2 3]).1 =
      List.replicate ((2 : Int) - 0).toNat "IDLE" ++
        (List.replicate (3 : Int).toNat "P1" ++ (fcfsRun (2 + 3) []).1) ∧
    (fcfsRun 0 [Proc.mk "P1" 2 3]).2 =
      { pid := "P1", arrival := 2, burst := 3, completion := 2 + 3,
        turnaround := 3, waiting := 0 } :: (fcfsRun (2 + 3) []).2 ∧
    fcfs [⟨"P1", 2, 3⟩] =
      (["IDLE", "IDLE", "P1", "P1", "P1"], [⟨"P1", 2, 3, 5, 3, 0⟩]) :=
  fcfs_idle_gap 0 (Proc.mk "P1" 2 3) [] (by decide)

/-- C5: expanding the run-length-compressed timeline reproduces the original
timeline exactly, and the empty timeline compresses to the empty block list. -/
theorem compressedTimeline_round_trip (timeline : List String) :
    expandTimeline (compressedTimeline timeline) = timeline ∧
    compressedTimeline [] = ([] : List TimelineBlock) := by
  refine ⟨?_, rfl⟩
  have h := foldl_compressStep_expand timeline []
  simpa [compressedTimeline, expandTimeline] using h

/-- C6 as frozen is falsified by a process whose pid is the sentinel string
`IDLE` itself (validation accepts such a pid): with input `[{IDLE, 0, 1}]`
the timeline is `["IDLE"]`, so it has 0 non-IDLE units while the burst sum
is 1. -/
theorem fcfs_conservation_counterexample :
    (∀ p ∈ [Proc.mk "IDLE" 0 1], 0 ≤ p.arrival ∧ 1 ≤ p.burst) ∧
    ¬ ((((fcfs [Proc.mk "IDLE" 0 1]).1.countP fun u => !(u == "IDLE")) : Int) =
        ([Proc.mk "IDLE" 0 1].map Proc.burst).sum) := by
  refine ⟨by decide, by decide⟩

/-- C6 (amended): for valid input in which no process id equals the sentinel
`IDLE`, the number of non-IDLE timeline units equals the sum of the bursts. -/
theorem fcfs_conservation_amended (ps : List Proc)
    (hvalid : ∀ p ∈ ps, 0 ≤ p.arrival ∧ 1 ≤ p.burst)
    (hidle : "IDLE" ∉ ps.map Proc.pid) :
    (((fcfs ps).1.countP fun u => !(u == "IDLE")) : Int) = (ps.map Proc.burst).sum := by
  rw [fcfs_eq]
  have hperm : List.Perm (List.insertionSort fcfsLe ps) ps :=
    List.perm_insertionSort fcfsLe ps
  rw [fcfsRun_countP 0 (fun p hp => by have := hvalid p (hperm.mem_iff.1 hp); omega)
      (fun p hp hpid => hidle (hpid ▸ List.mem_map_of_mem Proc.pid (hperm.mem_iff.1 hp)))]
  exact (hperm.map Proc.burst).sum_eq

/-- C6 amended witness at `[{P1, arrival 1, burst 2}]`. -/
theorem fcfs_conservation_amended_witness :
    (((fcfs [Proc.mk "P1" 1 2]).1.countP fun u => !(u == "IDLE")) : Int) =
      ([Proc.mk "P1" 1 2].map Proc.burst).sum :=
  fcfs_conservation_amended [Proc.mk "P1" 1 2] (by decide) (by decide)

/-- C8: for non-empty results, `avgW` and `avgT` are the arithmetic means of
the waiting times and the turnaround times. -/
theorem avg_aggregation_mean (results : List ProcResult) (hne : results ≠ []) :
    avgWaiting results =
      ((results.map fun r => (r.waiting : ℚ)).sum) / (results.length : ℚ) ∧
    avgTurnaround results =
      ((results.map fun r => (r.turnaround : ℚ)).sum) / (results.length : ℚ) := by
  unfold avgWaiting avgTurnaround
  rw [foldl_waiting_sum, foldl_turnaround_sum]
  simp

/-- C8 witness at a one-result list. -/
theorem avg_aggregation_mean_witness :
    avgWaiting [ProcResult.mk "P1" 0 2 2 2 0] =
      (([ProcResult.mk "P1" 0 2 2 2 0].map fun r => (r.waiting : ℚ)).sum) /
        (([ProcResult.mk "P1" 0 2 2 2 0] : List ProcResult).length : ℚ) ∧
    avgTurnaround [ProcResult.mk "P1" 0 2 2 2 0] =
      (([ProcResult.mk "P1" 0 2 2 2 0].map fun r => (r.turnaround : ℚ)).sum) /
        (([ProcResult.mk "P1" 0 2 2 2 0] : List ProcResult).length : ℚ) :=
  avg_aggregation_mean [ProcResult.mk "P1" 0 2 2 2 0] (by decide)

/-- C9: on valid input (every burst ≥ 1) the results have strictly increasing
completion times. -/
theorem fcfs_completion_strict_mono (ps : List Proc)
    (hvalid : ∀ p ∈ ps, 1 ≤ p.burst) :
    ((fcfs ps).2).Pairwise fun a b => a.completion < b.completion := by
  rw [fcfs_eq]
  exact fcfsRun_pairwise_completion 0
    (fun p hp => hvalid p ((List.perm_insertionSort fcfsLe ps).mem_iff.1 hp))

/-- C9 witness at a two-process input. -/
theorem fcfs_completion_strict_mono_witness :
    ((fcfs [Proc.mk "P1" 0 2, Proc.mk "P2" 0 3]).2).Pairwise
      fun a b => a.completion < b.completion :=
  fcfs_completion_strict_mono [Proc.mk "P1" 0 2, Proc.mk "P2" 0 3] (by decide)

/-- C10: `fcfs` does not mutate its argument: with the caller's array threaded
as explicit state, the post-call state equals the input, the value returned
is exactly `fcfs` of the input, and the element copies taken by the body are
field-for-field equal to the originals. -/
theorem fcfs_no_mutation (processes : List Proc) :
    (fcfsWithCallerState processes).2 = processes ∧
    (fcfsWithCallerState processes).1 = fcfs processes ∧
    processes.map copyProc = processes :=
  ⟨rfl, rfl, map_copyProc processes⟩

theorem collectValid_all_blank : ∀ ps : List RawProcess,
    (∀ q ∈ ps, trimChars q.pid.data ≠ [] ∧ q.arrival = none ∧ q.burst = none) →
    collectValid ps = .ok []
  | [], _ => rfl
  | q :: qs, h => by
    obtain ⟨hq, ha, hb⟩ := h q (by simp)
    simp only [collectValid, if_neg hq]
    rw [ha, hb]
    exact collectValid_all_blank qs (fun r hr => h r (by simp [hr]))

/-- C7: validation in `simulate` is all-or-nothing: a row with both fields
absent is silently skipped; a row with exactly one of the two present aborts
the batch with the incomplete-process error naming that row's pid; a batch
whose rows are all blank is rejected as empty; when any rule fails no
schedule is produced (the outcome is an error, never a result); and the
concrete input `[{P1, arrival 5, burst ""}]` is rejected as incomplete. -/
theorem simulate_validation_policy (p1 p2 p3 : RawProcess) (a b : Int)
    (rest ps : List RawProcess)
    (hpid1 : trimChars p1.pid.data ≠ [])
    (ha1 : p1.arrival = none) (hb1 : p1.burst = none)
    (hpid2 : trimChars p2.pid.data ≠ [])
    (ha2 : p2.arrival = some a) (hb2 : p2.burst = none)
    (hpid3 : trimChars p3.pid.data ≠ [])
    (ha3 : p3.arrival = none) (hb3 : p3.burst = some b)
    (hall : ∀ q ∈ ps, trimChars q.pid.data ≠ [] ∧ q.arrival = none ∧ q.burst = none) :
    simulate (p1 :: rest) = simulate rest ∧
    simulate (p2 :: rest) = .error (.incompleteProcess p2.pid) ∧
    simulate (p3 :: rest) = .error (.incompleteProcess p3.pid) ∧
    simulate ps = .error .emptyBatch ∧
    (∀ e out, simulate ps = .error e → simulate ps ≠ .ok out) ∧
    simulate [⟨"P1", some 5, none⟩] = .error (.incompleteProcess "P1") := by
  refine ⟨?_, ?_, ?_, ?_, ?_, rfl⟩
  · have hcv : collectValid (p1 :: rest) = collectValid rest := by
      simp only [collectValid, if_neg hpid1]
      rw [ha1, hb1]
    simp only [simulate, hcv]
  · have hcv : collectValid (p2 :: rest) = .error (.incompleteProcess p2.pid) := by
      simp only [collectValid, if_neg hpid2]
      rw [ha2, hb2]
    simp only [simulate, hcv]
  · have hcv : collectValid (p3 :: rest) = .error (.incompleteProcess p3.pid) := by
      simp only [collectValid, if_neg hpid3]
      rw [ha3, hb3]
    simp only [simulate, hcv]
  · have hcv := collectValid_all_blank ps hall
    simp only [simulate, hcv]
    rfl
  · intro e out he
    rw [he]
    exact fun h => Except.noConfusion h

/-- C7 witness: skip, the two incomplete-abort shapes, empty-batch and
error-exclusivity instantiated at concrete rows. -/
theorem simulate_validation_policy_witness :
    simulate [(⟨"P0", none, none⟩ : RawProcess), ⟨"P9", some 1, some 1⟩] =
      simulate [(⟨"P9", some 1, some 1⟩ : RawProcess)] ∧
    simulate [(⟨"P1", some 5, none⟩ : RawProcess), ⟨"P9", some 1, some 1⟩] =
      .error (.incompleteProcess "P1") ∧
    simulate [(⟨"P3", none, some 4⟩ : RawProcess), ⟨"P9", some 1, some 1⟩] =
      .error (.incompleteProcess "P3") ∧
    simulate [(⟨"P2", none, none⟩ : RawProcess)] = .error .emptyBatch ∧
    (∀ e out, simulate [(⟨"P2", none, none⟩ : RawProcess)] = .error e →
      simulate [(⟨"P2", none, none⟩ : RawProcess)] ≠ .ok out) ∧
    simulate [⟨"P1", some 5, none⟩] = .error (.incompleteProcess "P1") :=
  simulate_validation_policy ⟨"P0", none, none⟩ ⟨"P1", some 5, none⟩
    ⟨"P3", none, some 4⟩ 5 4 [⟨"P9", some 1, some 1⟩] [⟨"P2", none, none⟩]
    (by decide) (by decide) (by decide) (by decide) (by decide) (by decide)
    (by decide) (by decide) (by decide) (by decide)

/-- C2 as frozen is falsified on two inputs the validator accepts: a process
named `IDLE` (its execution units are indistinguishable from idle gaps, so a
later idle gap puts a unit of the smaller id after the larger id's units),
and two distinct processes sharing a pid. -/
theorem fcfs_tie_break_counterexample :
    ((∀ r ∈ [Proc.mk "IDLE" 0 1, Proc.mk "P2" 0 1, Proc.mk "Z" 3 1],
        0 ≤ r.arrival ∧ 1 ≤ r.burst) ∧
      (Proc.mk "IDLE" 0 1).arrival = (Proc.mk "P2" 0 1).arrival ∧
      lexLe (Proc.mk "IDLE" 0 1).pid.data (Proc.mk "P2" 0 1).pid.data = true ∧
      (Proc.mk "IDLE" 0 1).pid ≠ (Proc.mk "P2" 0 1).pid ∧
      ¬ (∀ (i j : Fin (fcfs [Proc.mk "IDLE" 0 1, Proc.mk "P2" 0 1,
              Proc.mk "Z" 3 1]).1.length),
          (fcfs [Proc.mk "IDLE" 0 1, Proc.mk "P2" 0 1, Proc.mk "Z" 3 1]).1.get i =
            (Proc.mk "IDLE" 0 1).pid →
          (fcfs [Proc.mk "IDLE" 0 1, Proc.mk "P2" 0 1, Proc.mk "Z" 3 1]).1.get j =
            (Proc.mk "P2" 0 1).pid →
          (i : Nat) < (j : Nat))) ∧
    ((∀ r ∈ [Proc.mk "A" 0 1, Proc.mk "B" 0 1, Proc.mk "A" 3 1],
        0 ≤ r.arrival ∧ 1 ≤ r.burst) ∧
      (Proc.mk "A" 0 1).arrival = (Proc.mk "B" 0 1).arrival ∧
      lexLe (Proc.mk "A" 0 1).pid.data (Proc.mk "B" 0 1).pid.data = true ∧
      (Proc.mk "A" 0 1).pid ≠ (Proc.mk "B" 0 1).pid ∧
      ¬ (∀ (i j : Fin (fcfs [Proc.mk "A" 0 1, Proc.mk "B" 0 1,
              Proc.mk "A" 3 1]).1.length),
          (fcfs [Proc.mk "A" 0 1, Proc.mk "B" 0 1, Proc.mk "A" 3 1]).1.get i =
            (Proc.mk "A" 0 1).pid →
          (fcfs [Proc.mk "A" 0 1, Proc.mk "B" 0 1, Proc.mk "A" 3 1]).1.get j =
            (Proc.mk "B" 0 1).pid →
          (i : Nat) < (j : Nat))) := by
  refine ⟨⟨by decide, by decide, by decide, by decide, by decide⟩,
    by decide, by decide, by decide, by decide, by decide⟩

/-- C2 (amended): for valid input whose pids are pairwise distinct and never
the sentinel `IDLE`, of two processes with equal arrival time the one with
the lexicographically smaller pid completes strictly earlier and all of its
timeline units come before all units of the other. -/
theorem fcfs_tie_break_amended (ps : List Proc) (p q : Proc)
    (hvalid : ∀ r ∈ ps, 0 ≤ r.arrival ∧ 1 ≤ r.burst)
    (hnodup : (ps.map Proc.pid).Nodup)
    (hidle : "IDLE" ∉ ps.map Proc.pid)
    (hp : p ∈ ps) (hq : q ∈ ps)
    (harr : p.arrival = q.arrival)
    (hlex : lexLe p.pid.data q.pid.data = true)
    (hpq : p.pid ≠ q.pid) :
    (∃ rp ∈ (fcfs ps).2, rp.pid = p.pid ∧
        ∃ rq ∈ (fcfs ps).2, rq.pid = q.pid ∧ rp.completion < rq.completion) ∧
    (∀ (i j : Fin (fcfs ps).1.length),
        (fcfs ps).1.get i = p.pid → (fcfs ps).1.get j = q.pid →
        (i : Nat) < (j : Nat)) := by
  haveI : IsTotal Proc fcfsLe := ⟨fcfsLe_total⟩
  haveI : IsTrans Proc fcfsLe := ⟨fcfsLe_trans⟩
  rw [fcfs_eq]
  have hperm : List.Perm (List.insertionSort fcfsLe ps) ps :=
    List.perm_insertionSort fcfsLe ps
  have hsorted : (List.insertionSort fcfsLe ps).Pairwise fcfsLe :=
    List.sorted_insertionSort fcfsLe ps
  set s := List.insertionSort fcfsLe ps with hs
  have hps : p ∈ s := hperm.mem_iff.2 hp
  have hqs : q ∈ s := hperm.mem_iff.2 hq
  have hnle : ¬ fcfsLe q p := by
    rintro (h | ⟨h1, h2⟩)
    · rw [harr] at h
      exact lt_irrefl _ h
    · exact hpq (congrArg String.mk (lexLe_antisymm _ _ hlex h2))
  obtain ⟨s₁, s₂, hsplit⟩ := List.append_of_mem hps
  have hqs₂ : q ∈ s₂ := by
    rw [hsplit] at hqs hsorted
    rcases List.mem_append.1 hqs with hq1 | hq2
    · exact absurd
        ((List.pairwise_append.1 hsorted).2.2 q hq1 p (List.mem_cons_self p s₂)) hnle
    · rcases List.mem_cons.1 hq2 with heq | h
      · exact absurd (congrArg Proc.pid heq).symm hpq
      · exact h
  have hsplit' : s = (s₁ ++ [p]) ++ s₂ := by
    rw [hsplit, List.append_assoc, List.singleton_append]
  have hsnodup : (s.map Proc.pid).Nodup := (hperm.map Proc.pid).nodup_iff.2 hnodup
  have hsidle : "IDLE" ∉ s.map Proc.pid := fun h =>
    hidle ((hperm.map Proc.pid).mem_iff.1 h)
  have hpidne : p.pid ≠ "IDLE" := fun h =>
    hsidle (h ▸ List.mem_map_of_mem Proc.pid hps)
  have hqidne : q.pid ≠ "IDLE" := fun h =>
    hsidle (h ▸ List.mem_map_of_mem Proc.pid hqs)
  have hmapsplit : s.map Proc.pid = (s₁.map Proc.pid ++ [p.pid]) ++ s₂.map Proc.pid := by
    rw [hsplit']
    simp
  rw [hmapsplit] at hsnodup
  have hnd := List.nodup_append.1 hsnodup
  have hpnotB : p.pid ∉ s₂.map Proc.pid := fun h =>
    hnd.2.2 (List.mem_append.2 (Or.inr (List.mem_singleton.2 rfl))) h
  have hqinB : q.pid ∈ s₂.map Proc.pid := List.mem_map_of_mem Proc.pid hqs₂
  have hqnotA : q.pid ∉ (s₁ ++ [p]).map Proc.pid := by
    intro h
    rw [List.map_append] at h
    exact hnd.2.2 (by simpa using h) hqinB
  have hvA : ∀ r ∈ s₁ ++ [p], 1 ≤ r.burst := fun r hr =>
    (hvalid r (hperm.mem_iff.1 (by rw [hsplit']; exact List.mem_append.2 (Or.inl hr)))).2
  have hvB : ∀ r ∈ s₂, 1 ≤ r.burst := fun r hr =>
    (hvalid r (hperm.mem_iff.1 (by rw [hsplit']; exact List.mem_append.2 (Or.inr hr)))).2
  have happ := fcfsRun_append (s₁ ++ [p]) s₂ 0
  rw [hsplit', happ]
  dsimp only
  constructor
  · obtain ⟨rp, hrpA, hrp⟩ := List.mem_map.1
      (show p.pid ∈ (fcfsRun 0 (s₁ ++ [p])).2.map ProcResult.pid by
        rw [fcfsRun_results_pid]
        simp)
    obtain ⟨rq, hrqB, hrq⟩ := List.mem_map.1
      (show q.pid ∈ (fcfsRun (clockAfter 0 (s₁ ++ [p])) s₂).2.map ProcResult.pid by
        rw [fcfsRun_results_pid]
        exact List.mem_map_of_mem Proc.pid hqs₂)
    refine ⟨rp, List.mem_append.2 (Or.inl hrpA), hrp, rq,
      List.mem_append.2 (Or.inr hrqB), hrq, ?_⟩
    have h1 := (fcfsRun_completion_bounds 0 hvA rp hrpA).2
    have h2 := (fcfsRun_completion_bounds (clockAfter 0 (s₁ ++ [p])) hvB rq hrqB).1
    omega
  · intro i j hip hjq
    have hi : (i : Nat) < (fcfsRun 0 (s₁ ++ [p])).1.length := by
      by_contra hle
      push_neg at hle
      have hisl := i.isLt
      have hlen : ((fcfsRun 0 (s₁ ++ [p])).1 ++
            (fcfsRun (clockAfter 0 (s₁ ++ [p])) s₂).1).length =
          (fcfsRun 0 (s₁ ++ [p])).1.length +
            (fcfsRun (clockAfter 0 (s₁ ++ [p])) s₂).1.length := List.length_append _ _
      have hib : (i : Nat) - (fcfsRun 0 (s₁ ++ [p])).1.length <
          (fcfsRun (clockAfter 0 (s₁ ++ [p])) s₂).1.length := by omega
      have hgetb : ((fcfsRun 0 (s₁ ++ [p])).1 ++
            (fcfsRun (clockAfter 0 (s₁ ++ [p])) s₂).1).get i =
          (fcfsRun (clockAfter 0 (s₁ ++ [p])) s₂).1.get
            ⟨(i : Nat) - (fcfsRun 0 (s₁ ++ [p])).1.length, hib⟩ := by
        rw [List.get_eq_getElem, List.get_eq_getElem, List.getElem_append_right hle]
      rw [hgetb] at hip
      have hmem : p.pid ∈ (fcfsRun (clockAfter 0 (s₁ ++ [p])) s₂).1 :=
        hip ▸ List.get_mem _ _ _
      rcases mem_fcfsRun_timeline hmem with h | h
      · exact hpidne h
      · exact hpnotB h
    have hj : (fcfsRun 0 (s₁ ++ [p])).1.length ≤ (j : Nat) := by
      by_contra hlt
      push_neg at hlt
      have hgeta : ((fcfsRun 0 (s₁ ++ [p])).1 ++
            (fcfsRun (clockAfter 0 (s₁ ++ [p])) s₂).1).get j =
          (fcfsRun 0 (s₁ ++ [p])).1.get ⟨(j : Nat), hlt⟩ := by
        rw [List.get_eq_getElem, List.get_eq_getElem, List.getElem_append_left hlt]
      rw [hgeta] at hjq
      have hmem : q.pid ∈ (fcfsRun 0 (s₁ ++ [p])).1 := hjq ▸ List.get_mem _ _ _
      rcases mem_fcfsRun_timeline hmem with h | h
      · exact hqidne h
      · exact hqnotA h
    omega

/-- C2 amended witness at scenario C: `[{P2, 0, 2}, {P1, 0, 2}]`, comparing
P1 against P2. -/
theorem fcfs_tie_break_amended_witness :
    (∃ rp ∈ (fcfs [Proc.mk "P2" 0 2, Proc.mk "P1" 0 2]).2,
        rp.pid = (Proc.mk "P1" 0 2).pid ∧
        ∃ rq ∈ (fcfs [Proc.mk "P2" 0 2, Proc.mk "P1" 0 2]).2,
          rq.pid = (Proc.mk "P2" 0 2).pid ∧ rp.completion < rq.completion) ∧
    (∀ (i j : Fin (fcfs [Proc.mk "P2" 0 2, Proc.mk "P1" 0 2]).1.length),
        (fcfs [Proc.mk "P2" 0 2, Proc.mk "P1" 0 2]).1.get i = (Proc.mk "P1" 0 2).pid →
        (fcfs [Proc.mk "P2" 0 2, Proc.mk "P1" 0 2]).1.get j = (Proc.mk "P2" 0 2).pid →
        (i : Nat) < (j : Nat)) :=
  fcfs_tie_break_amended [Proc.mk "P2" 0 2, Proc.mk "P1" 0 2]
    (Proc.mk "P1" 0 2) (Proc.mk "P2" 0 2)
    (by decide) (by decide) (by decide) (by decide) (by decide)
    (by decide) (by decide) (by decide)

/-- Spec scenario A, checked by evaluation. -/
theorem fcfs_scenario_A :
    fcfs [⟨"P1", 0, 5⟩, ⟨"P2", 1, 3⟩] =
      (["P1", "P1", "P1", "P1", "P1", "P2", "P2", "P2"],
       [⟨"P1", 0, 5, 5, 5, 0⟩, ⟨"P2", 1, 3, 8, 7, 4⟩]) := by decide

/-- Spec scenario B, checked by evaluation. -/
theorem fcfs_scenario_B :
    fcfs [⟨"P1", 2, 3⟩] =
      (["IDLE", "IDLE", "P1", "P1", "P1"], [⟨"P1", 2, 3, 5, 3, 0⟩]) := by decide

/-- Spec scenario C, checked by evaluation. -/
theorem fcfs_scenario_C : fcfs [⟨"P2", 0, 2⟩, ⟨"P1", 0, 2⟩] =
    (["P1", "P1", "P2", "P2"], [⟨"P1", 0, 2, 2, 2, 0⟩, ⟨"P2", 0, 2, 4, 4, 2⟩]) := by
  decide

/-- Run-length compression on a small timeline, checked by evaluation. -/
theorem compressedTimeline_example : compressedTimeline ["IDLE", "IDLE", "P1", "P1", "P2"] =
    [⟨"IDLE", 2⟩, ⟨"P1", 2⟩, ⟨"P2", 1⟩] := by decide

/-- Spec scenario D, checked by evaluation. -/
theorem simulate_scenario_D :
    simulate [⟨"P1", some 5, none⟩] = .error (.incompleteProcess "P1") := rfl

/-- A successful simulation with one blank (skipped) row, checked by evaluation. -/
theorem simulate_example_ok : simulate [⟨"P1", some 2, some 3⟩, ⟨"P2", none, none⟩] =
    .ok ([⟨"P1", 2, 3, 5, 3, 0⟩], ["IDLE", "IDLE", "P1", "P1", "P1"]) := rfl
